import Mathlib

/-!
Verification of the memtable core of a columnar storage engine
(`be/src/olap/memtable.cpp`): the in-memory write buffer that accepts
records, keeps them in a skip list sorted by key, and drains them in key
order into an external rowset writer.

The embedding models the code of `memtable.cpp` directly.  Collaborators
whose code is outside the file (the skip list's `Insert`, the mem pool,
the row comparator, `agg_finalize_row`, the rowset writer) are modelled
from the spec's interface contracts, at the granularity the memtable
observes them.
-/

/-- The three table semantics fixed at memtable construction
(`KeysType` in the source): duplicate-key, unique-key, aggregate-key. -/
inductive KeysType where
  | DUP_KEYS
  | UNIQUE_KEYS
  | AGG_KEYS
deriving DecidableEq

/-- Status type returned by `flush`/`close` (`OLAPStatus` in the source):
`OLAP_SUCCESS` or an error code.  `RETURN_NOT_OK(st)` in the source
returns `st` from the enclosing function when `st` is not success. -/
inductive OLAPStatus where
  | OLAP_SUCCESS
  | OLAP_ERR (code : Nat)
deriving DecidableEq

/-- A resident record of the memtable.  Modelled from the spec: a record
is a contiguous byte buffer laid out per the schema; here `buf` is the
handle of the arena allocation backing the record (§9's handle model),
`key` the composite key sub-tuple collapsed to one ordered value, `val`
the value columns collapsed to one cell carrying the running aggregation
state, and `finalized` whether `agg_finalize_row` has resolved that
running state (§4.3 finalization). -/
structure Row where
  buf : Nat
  key : Int
  val : Int
  finalized : Bool
deriving DecidableEq

/-- Modelled from the spec: the arena/budget tracker (§6), whose code
(`MemPool`/`MemTracker`) is not under `src/`.  `consumption` is the
cumulative tracked bytes; `nextId` numbers allocations so that each
`allocate` hands out a fresh buffer handle. -/
structure MemPool where
  consumption : Nat
  nextId : Nat
deriving DecidableEq

/-- Modelled from the spec: `allocate(size) -> buffer` adds `size` to the
tracked consumption and returns a fresh buffer handle. -/
def MemPool.allocate (p : MemPool) (size : Nat) : Nat × MemPool :=
  (p.nextId, { consumption := p.consumption + size, nextId := p.nextId + 1 })

/-- A decoded input tuple as the memtable observes it in `insert`: per
schema column a typed value (collapsed to `key` and `val`), plus the
variable-length bytes that the per-column `consume` step appends through
the shared arena while copying the cells (the copy boundary of §4.4). -/
structure Tuple where
  key : Int
  val : Int
  varBytes : Nat
deriving DecidableEq

/-- Modelled from the spec (§4.3): the aggregation policy applied to a
resident record and a new record with equal keys.  Unique-key overwrites
the value columns; aggregate-key combines them per the configured
aggregation function (sum is the representative function, §8's test
property).  Key columns are never touched.  Not invoked for
duplicate-key tables. -/
def mergeRow (kt : KeysType) (resident incoming : Row) : Row :=
  match kt with
  | .UNIQUE_KEYS => { resident with val := incoming.val }
  | .AGG_KEYS => { resident with val := resident.val + incoming.val }
  | .DUP_KEYS => resident

/-- Modelled from the spec: `SkipList::Insert(key, overwritten, keysType)`
is not under `src/`; `memtable.cpp` line 77 passes the table's
`_keys_type` into it, so the equal-key handling is keyed inside the index.
The index keeps records in ascending key order.  If no equal key exists
the record becomes a new node and `overwritten` stays false; on an equal
key, a duplicate-key table inserts a distinct node (tie broken by placing
the new node first, the skip list's splice point), while unique-key and
aggregate-key tables merge into the resident node in place (keeping its
backing buffer) and set `overwritten`. -/
def skipListInsert : List Row → Row → KeysType → List Row × Bool
  | [], r, _ => ([r], false)
  | x :: xs, r, kt =>
    if r.key < x.key then (r :: x :: xs, false)
    else if x.key < r.key then
      let p := skipListInsert xs r kt
      (x :: p.1, p.2)
    else
      match kt with
      | .DUP_KEYS => (r :: x :: xs, false)
      | _ => (mergeRow kt x r :: xs, true)

/-- Modelled from the spec (§4.3): `agg_finalize_row` resolves each value
column's running aggregation state to its final representable value; a
no-op for columns carrying no running state.  The `finalized` flag
records that the resolution has happened. -/
def agg_finalize_row (r : Row) : Row :=
  { r with finalized := true }

/-- The memtable state (`MemTable` in the source): schema row footprint
(`_schema_size`), table semantics (`_keys_type`), the arena
(`_mem_pool` with its `_mem_tracker`), the current scratch buffer handle
(`_tuple_buf`), and the skip list's resident records in key order
(`_skip_list`). -/
structure MemTable where
  schema_size : Nat
  keys_type : KeysType
  pool : MemPool
  tuple_buf : Nat
  records : List Row
deriving DecidableEq

/-- `MemTable::MemTable` (source lines 28-45): creates the tracker and
pool, then eagerly allocates one scratch buffer of `_schema_size` bytes
(`_tuple_buf = _mem_pool->allocate(_schema_size)`) and an empty skip
list. -/
def MemTable.new (schema_size : Nat) (kt : KeysType) : MemTable :=
  let p0 : MemPool := { consumption := 0, nextId := 0 }
  let a := p0.allocate schema_size
  { schema_size := schema_size, keys_type := kt, pool := a.2,
    tuple_buf := a.1, records := [] }

/-- `MemTable::memory_usage` (source lines 60-62): returns
`_mem_pool->mem_tracker()->consumption()`. -/
def MemTable.memory_usage (mt : MemTable) : Nat :=
  mt.pool.consumption

/-- The record built in the scratch buffer by `insert`'s decode loop
(source lines 65-74): the tuple's cells copied into `_tuple_buf` under
the schema. -/
def MemTable.mkRow (mt : MemTable) (t : Tuple) : Row :=
  { buf := mt.tuple_buf, key := t.key, val := t.val, finalized := false }

/-- The `overwritten` flag produced by the skip list `Insert` call inside
`MemTable::insert` (source line 77). -/
def MemTable.overwrittenOf (mt : MemTable) (t : Tuple) : Bool :=
  (skipListInsert mt.records (mt.mkRow t) mt.keys_type).2

/-- `MemTable::insert` (source lines 64-81): decode each column of the
tuple into the scratch buffer (the `consume` calls may append
variable-length bytes through `_mem_pool`), call
`_skip_list->Insert(_tuple_buf, &overwritten, _keys_type)`, and allocate
a fresh scratch buffer of `_schema_size` bytes only when `overwritten`
is false. -/
def MemTable.insert (mt : MemTable) (t : Tuple) : MemTable :=
  let pool1 : MemPool :=
    { mt.pool with consumption := mt.pool.consumption + t.varBytes }
  let p := skipListInsert mt.records (mt.mkRow t) mt.keys_type
  if p.2 then
    { mt with pool := pool1, records := p.1 }
  else
    let a := pool1.allocate mt.schema_size
    { mt with pool := a.2, records := p.1, tuple_buf := a.1 }

/-- A sequence of `insert` calls applied in order: the reachable memtable
states are exactly `applyInserts (MemTable.new s kt) ts`. -/
def applyInserts (mt : MemTable) (ts : List Tuple) : MemTable :=
  ts.foldl MemTable.insert mt

/-- The external rowset writer as `flush` observes it: the status its
`add_row` returns on the i-th call (0-based), and the status of its final
`flush` (seal).  Modelled from the spec (§6). -/
structure RowsetWriter where
  addSt : Nat → OLAPStatus
  flushSt : OLAPStatus

/-- One observable call made to the rowset writer during flush: a
per-record `add_row` carrying the handed record, or the final `flush`
(seal). -/
inductive WriterEvent where
  | add (r : Row)
  | seal
deriving DecidableEq

/-- The per-record loop of `MemTable::flush` (source lines 87-94):
iterate the records from the first, finalize each with
`agg_finalize_row`, call `add_row` on it, and return the writer's status
immediately when it is not success (`RETURN_NOT_OK`).  Returns the loop
status and the trace of writer calls made; `k` is the index of the next
`add_row` call. -/
def addLoop (w : RowsetWriter) : Nat → List Row → OLAPStatus × List WriterEvent
  | _, [] => (.OLAP_SUCCESS, [])
  | k, r :: rs =>
    let fr := agg_finalize_row r
    match w.addSt k with
    | .OLAP_SUCCESS =>
      let p := addLoop w (k + 1) rs
      (p.1, .add fr :: p.2)
    | .OLAP_ERR e => (.OLAP_ERR e, [.add fr])

/-- `MemTable::flush` (source lines 83-99): run the per-record loop over
the skip list in key order; if it succeeds, call the writer's `flush`
(seal) and return its status (success overall when it succeeds); if a
per-record `add_row` failed, return that failure without calling seal.
Returns the status and the trace of writer calls. -/
def MemTable.flush (mt : MemTable) (w : RowsetWriter) :
    OLAPStatus × List WriterEvent :=
  let p := addLoop w 0 mt.records
  match p.1 with
  | .OLAP_SUCCESS => (w.flushSt, p.2 ++ [.seal])
  | .OLAP_ERR e => (.OLAP_ERR e, p.2)

/-- `MemTable::close` (source lines 101-103): `return flush();`. -/
def MemTable.close (mt : MemTable) (w : RowsetWriter) :
    OLAPStatus × List WriterEvent :=
  mt.flush w

/-- Records in ascending (non-decreasing) key order per the comparator:
the order in which the skip list's iterator surfaces them. -/
def keysSorted (rs : List Row) : Prop :=
  List.Pairwise (fun a b => a.key ≤ b.key) rs

instance keysSorted.dec (rs : List Row) : Decidable (keysSorted rs) :=
  List.instDecidablePairwise rs

/-- The index contract written from the spec's words (§4.2
`insert_or_locate`), for comparison with the source model: if a record
with an equal key exists, the existing node's bytes are returned
unchanged with `already_existed = true` and the index performs no
merging; otherwise the given bytes become a new node. -/
def specIndexInsert : List Row → Row → KeysType → List Row × Bool
  | [], r, _ => ([r], false)
  | x :: xs, r, kt =>
    if r.key < x.key then (r :: x :: xs, false)
    else if x.key < r.key then
      let p := specIndexInsert xs r kt
      (x :: p.1, p.2)
    else
      match kt with
      | .DUP_KEYS => (r :: x :: xs, false)
      | _ => (x :: xs, true)

/-- `MemTable::insert` composed with the spec's never-merging index
(§4.2) in place of the skip list: identical to `MemTable.insert` except
that the index call is `specIndexInsert`.  The source memtable applies
no aggregation of its own after the index call, and this definition
reproduces that faithfully. -/
def MemTable.insertLocateOnly (mt : MemTable) (t : Tuple) : MemTable :=
  let pool1 : MemPool :=
    { mt.pool with consumption := mt.pool.consumption + t.varBytes }
  let p := specIndexInsert mt.records (mt.mkRow t) mt.keys_type
  if p.2 then
    { mt with pool := pool1, records := p.1 }
  else
    let a := pool1.allocate mt.schema_size
    { mt with pool := a.2, records := p.1, tuple_buf := a.1 }


/-! ### Basic lemmas about the index model -/

/-- Merging never touches the key columns (§4.3). -/
theorem mergeRow_key (kt : KeysType) (x r : Row) :
    (mergeRow kt x r).key = x.key := by
  cases kt <;> rfl

/-- Merging happens in place in the resident node: its backing buffer is
kept. -/
theorem mergeRow_buf (kt : KeysType) (x r : Row) :
    (mergeRow kt x r).buf = x.buf := by
  cases kt <;> rfl

/-- Every key in the index after an `Insert` is either the inserted key
or a key that was already resident. -/
theorem skipListInsert_key_mem (rs : List Row) (r : Row) (kt : KeysType) :
    ∀ b ∈ (skipListInsert rs r kt).1, b.key = r.key ∨ ∃ a ∈ rs, b.key = a.key := by
  induction rs with
  | nil =>
    intro b hb
    simp only [skipListInsert, List.mem_singleton] at hb
    exact Or.inl (hb ▸ rfl)
  | cons x xs ih =>
    intro b hb
    by_cases h1 : r.key < x.key
    · simp only [skipListInsert, if_pos h1, List.mem_cons] at hb
      rcases hb with rfl | rfl | hb
      · exact Or.inl rfl
      · exact Or.inr ⟨b, List.mem_cons_self _ _, rfl⟩
      · exact Or.inr ⟨b, List.mem_cons_of_mem _ hb, rfl⟩
    · by_cases h2 : x.key < r.key
      · simp only [skipListInsert, if_neg h1, if_pos h2, List.mem_cons] at hb
        rcases hb with rfl | hb
        · exact Or.inr ⟨b, List.mem_cons_self _ _, rfl⟩
        · rcases ih b hb with hk | ⟨a, ha, hk⟩
          · exact Or.inl hk
          · exact Or.inr ⟨a, List.mem_cons_of_mem _ ha, hk⟩
      · simp only [skipListInsert, if_neg h1, if_neg h2] at hb
        cases kt with
        | DUP_KEYS =>
          simp only [List.mem_cons] at hb
          rcases hb with rfl | rfl | hb
          · exact Or.inl rfl
          · exact Or.inr ⟨b, List.mem_cons_self _ _, rfl⟩
          · exact Or.inr ⟨b, List.mem_cons_of_mem _ hb, rfl⟩
        | UNIQUE_KEYS =>
          simp only [List.mem_cons] at hb
          rcases hb with rfl | hb
          · exact Or.inr ⟨x, List.mem_cons_self _ _, mergeRow_key _ _ _⟩
          · exact Or.inr ⟨b, List.mem_cons_of_mem _ hb, rfl⟩
        | AGG_KEYS =>
          simp only [List.mem_cons] at hb
          rcases hb with rfl | hb
          · exact Or.inr ⟨x, List.mem_cons_self _ _, mergeRow_key _ _ _⟩
          · exact Or.inr ⟨b, List.mem_cons_of_mem _ hb, rfl⟩

/-- The skip list keeps its records in ascending key order across
`Insert`. -/
theorem skipListInsert_sorted (rs : List Row) (r : Row) (kt : KeysType)
    (h : keysSorted rs) : keysSorted (skipListInsert rs r kt).1 := by
  induction rs with
  | nil => simp [skipListInsert, keysSorted]
  | cons x xs ih =>
    rw [keysSorted, List.pairwise_cons] at h
    obtain ⟨hx, hxs⟩ := h
    by_cases h1 : r.key < x.key
    · simp only [skipListInsert, if_pos h1]
      refine List.Pairwise.cons ?_ (List.Pairwise.cons hx hxs)
      intro b hb
      rcases List.mem_cons.mp hb with rfl | hb
      · exact le_of_lt h1
      · exact le_trans (le_of_lt h1) (hx b hb)
    · by_cases h2 : x.key < r.key
      · simp only [skipListInsert, if_neg h1, if_pos h2]
        refine List.Pairwise.cons ?_ (ih hxs)
        intro b hb
        rcases skipListInsert_key_mem xs r kt b hb with hk | ⟨a, ha, hk⟩
        · rw [hk]; exact le_of_lt h2
        · rw [hk]; exact hx a ha
      · have hEq : r.key = x.key := le_antisymm (not_lt.mp h2) (not_lt.mp h1)
        simp only [skipListInsert, if_neg h1, if_neg h2]
        cases kt with
        | DUP_KEYS =>
          refine List.Pairwise.cons ?_ (List.Pairwise.cons hx hxs)
          intro b hb
          rcases List.mem_cons.mp hb with rfl | hb
          · exact le_of_eq hEq
          · exact hEq ▸ hx b hb
        | UNIQUE_KEYS =>
          refine List.Pairwise.cons ?_ hxs
          intro b hb
          rw [mergeRow_key]
          exact hx b hb
        | AGG_KEYS =>
          refine List.Pairwise.cons ?_ hxs
          intro b hb
          rw [mergeRow_key]
          exact hx b hb

/-- `insert` leaves the index exactly as the skip list's `Insert` call
produced it: the memtable applies no post-processing of its own. -/
theorem insert_records_eq (mt : MemTable) (t : Tuple) :
    (mt.insert t).records = (skipListInsert mt.records (mt.mkRow t) mt.keys_type).1 := by
  cases h : (skipListInsert mt.records (mt.mkRow t) mt.keys_type).2 <;>
    simp [MemTable.insert, h]

/-- `insert` preserves the ascending key order of the index. -/
theorem insert_sorted (mt : MemTable) (t : Tuple) (h : keysSorted mt.records) :
    keysSorted (mt.insert t).records := by
  rw [insert_records_eq]
  exact skipListInsert_sorted _ _ _ h

/-- Unfolding one step of a sequence of inserts. -/
theorem applyInserts_cons (mt : MemTable) (t : Tuple) (ts : List Tuple) :
    applyInserts mt (t :: ts) = applyInserts (mt.insert t) ts := rfl

/-- Every sequence of inserts preserves ascending key order. -/
theorem applyInserts_sorted (ts : List Tuple) (mt : MemTable)
    (h : keysSorted mt.records) : keysSorted (applyInserts mt ts).records := by
  induction ts generalizing mt with
  | nil => exact h
  | cons t ts ih => exact ih (mt.insert t) (insert_sorted mt t h)

/-- A freshly constructed memtable has an empty (trivially sorted)
index. -/
theorem new_records (s : Nat) (kt : KeysType) :
    (MemTable.new s kt).records = [] := rfl

/-! ### The flush loop -/

/-- When every `add_row` call succeeds, the per-record loop hands every
record to the writer, finalized exactly once, in list order. -/
theorem addLoop_all_ok (w : RowsetWriter) (rows : List Row) (k : Nat)
    (h : ∀ i, i < rows.length → w.addSt (k + i) = .OLAP_SUCCESS) :
    addLoop w k rows =
      (.OLAP_SUCCESS, rows.map (fun r => .add (agg_finalize_row r))) := by
  induction rows generalizing k with
  | nil => rfl
  | cons r rs ih =>
    have h0 : w.addSt k = .OLAP_SUCCESS := by
      have := h 0 (Nat.succ_pos rs.length)
      simpa using this
    have ht : ∀ i, i < rs.length → w.addSt (k + 1 + i) = .OLAP_SUCCESS := by
      intro i hi
      have := h (i + 1) (by simpa using Nat.succ_lt_succ hi)
      rwa [show k + (i + 1) = k + 1 + i by omega] at this
    simp [addLoop, h0, ih (k + 1) ht]

/-- When the writer's `add_row` fails on the call with index `j`
(0-based) and succeeded on every earlier call, the loop returns that
failure, hands over exactly the records up to and including the failing
one, and goes no further. -/
theorem addLoop_fail (w : RowsetWriter) (rows : List Row) (k j e : Nat)
    (hj : j < rows.length) (hfail : w.addSt (k + j) = .OLAP_ERR e)
    (hpre : ∀ i, i < j → w.addSt (k + i) = .OLAP_SUCCESS) :
    addLoop w k rows =
      (.OLAP_ERR e,
        (rows.take (j + 1)).map (fun r => .add (agg_finalize_row r))) := by
  induction rows generalizing k j with
  | nil => exact absurd hj (Nat.not_lt_zero j)
  | cons r rs ih =>
    cases j with
    | zero =>
      have h0 : w.addSt k = .OLAP_ERR e := by simpa using hfail
      simp [addLoop, h0]
    | succ j' =>
      have h0 : w.addSt k = .OLAP_SUCCESS := by
        have := hpre 0 (Nat.succ_pos j')
        simpa using this
      have hj' : j' < rs.length := by simpa using Nat.lt_of_succ_lt_succ hj
      have hfail' : w.addSt (k + 1 + j') = .OLAP_ERR e := by
        rwa [show k + (j' + 1) = k + 1 + j' by omega] at hfail
      have hpre' : ∀ i, i < j' → w.addSt (k + 1 + i) = .OLAP_SUCCESS := by
        intro i hi
        have := hpre (i + 1) (Nat.succ_lt_succ hi)
        rwa [show k + (i + 1) = k + 1 + i by omega] at this
      simp [addLoop, h0, ih (k + 1) j' hj' hfail' hpre']

/-- `flush` when every `add_row` succeeds: the writer sees every record,
finalized, in index order, then the seal; the result is the seal's
status. -/
theorem flush_all_ok (mt : MemTable) (w : RowsetWriter)
    (h : ∀ i, i < mt.records.length → w.addSt i = .OLAP_SUCCESS) :
    mt.flush w = (w.flushSt,
      mt.records.map (fun r => .add (agg_finalize_row r)) ++ [.seal]) := by
  have hloop := addLoop_all_ok w mt.records 0 (by intro i hi; simpa using h i hi)
  simp [MemTable.flush, hloop]

/-- `flush` when `add_row` first fails on the call with index `j`: the
failure is returned, the trace stops at the failing record, and seal is
never reached. -/
theorem flush_fail (mt : MemTable) (w : RowsetWriter) (j e : Nat)
    (hj : j < mt.records.length) (hfail : w.addSt j = .OLAP_ERR e)
    (hpre : ∀ i, i < j → w.addSt i = .OLAP_SUCCESS) :
    mt.flush w = (.OLAP_ERR e,
      (mt.records.take (j + 1)).map (fun r => .add (agg_finalize_row r))) := by
  have hloop := addLoop_fail w mt.records 0 j e hj (by simpa using hfail)
    (by intro i hi; simpa using hpre i hi)
  simp [MemTable.flush, hloop]

/-! ### Claim theorems -/

/-- C1: For every memtable state reachable by a sequence of inserts,
`flush` iterates the resident records of the index in ascending key
order, finalizes each resident record exactly once (`agg_finalize_row`)
immediately before handing it to the rowset writer's `add_row`, and
invokes the writer's `flush` (seal) exactly once after the last record
has been handed over — given that every `add_row` call succeeds. -/
theorem flush_drains_in_ascending_order_and_seals (s : Nat) (kt : KeysType)
    (ts : List Tuple) (w : RowsetWriter)
    (h : ∀ i, i < (applyInserts (MemTable.new s kt) ts).records.length →
        w.addSt i = .OLAP_SUCCESS) :
    keysSorted (applyInserts (MemTable.new s kt) ts).records ∧
    ((applyInserts (MemTable.new s kt) ts).flush w).2 =
      (applyInserts (MemTable.new s kt) ts).records.map
        (fun r => .add (agg_finalize_row r)) ++ [.seal] := by
  refine ⟨applyInserts_sorted ts _ ?_, ?_⟩
  · rw [new_records]
    exact List.Pairwise.nil
  · rw [flush_all_ok _ _ h]

/-- Witness for C1 at a concrete run: two records inserted in descending
key order are drained in ascending key order, each finalized, then
sealed. -/
theorem flush_drains_in_ascending_order_and_seals_witness :
    keysSorted (applyInserts (MemTable.new 8 .UNIQUE_KEYS)
      [⟨2, 5, 0⟩, ⟨1, 4, 3⟩]).records ∧
    ((applyInserts (MemTable.new 8 .UNIQUE_KEYS)
        [⟨2, 5, 0⟩, ⟨1, 4, 3⟩]).flush
        ⟨fun _ => .OLAP_SUCCESS, .OLAP_SUCCESS⟩).2 =
      (applyInserts (MemTable.new 8 .UNIQUE_KEYS)
        [⟨2, 5, 0⟩, ⟨1, 4, 3⟩]).records.map
        (fun r => .add (agg_finalize_row r)) ++ [.seal] :=
  flush_drains_in_ascending_order_and_seals 8 .UNIQUE_KEYS
    [⟨2, 5, 0⟩, ⟨1, 4, 3⟩] ⟨fun _ => .OLAP_SUCCESS, .OLAP_SUCCESS⟩
    (fun _ _ => rfl)

/-- C2: If the writer's `add_row` fails on the record with 0-based index
`j` during flush (the (j+1)-th record) and succeeded on all earlier
ones, then `flush` returns that failure, the records after the failing
one are never passed to the writer (the trace stops at the failing
record), and the writer's seal is not invoked. -/
theorem flush_stops_at_first_add_failure (s : Nat) (kt : KeysType)
    (ts : List Tuple) (w : RowsetWriter) (j e : Nat)
    (hj : j < (applyInserts (MemTable.new s kt) ts).records.length)
    (hfail : w.addSt j = .OLAP_ERR e)
    (hpre : ∀ i, i < j → w.addSt i = .OLAP_SUCCESS) :
    ((applyInserts (MemTable.new s kt) ts).flush w).1 = .OLAP_ERR e ∧
    ((applyInserts (MemTable.new s kt) ts).flush w).2 =
      ((applyInserts (MemTable.new s kt) ts).records.take (j + 1)).map
        (fun r => .add (agg_finalize_row r)) ∧
    WriterEvent.seal ∉ ((applyInserts (MemTable.new s kt) ts).flush w).2 := by
  have hf := flush_fail (applyInserts (MemTable.new s kt) ts) w j e hj hfail hpre
  refine ⟨by rw [hf], by rw [hf], ?_⟩
  rw [hf]
  intro hmem
  rcases List.mem_map.mp hmem with ⟨r, _, hr⟩
  exact WriterEvent.noConfusion hr

/-- Witness for C2 at a concrete run: with two resident records and a
writer failing on the second `add_row`, flush returns the failure, hands
over only the first two records, and never seals. -/
theorem flush_stops_at_first_add_failure_witness :
    ((applyInserts (MemTable.new 8 .DUP_KEYS) [⟨1, 4, 0⟩, ⟨2, 5, 0⟩]).flush
        ⟨fun i => if i = 0 then .OLAP_SUCCESS else .OLAP_ERR 3,
          .OLAP_SUCCESS⟩).1 = .OLAP_ERR 3 ∧
    ((applyInserts (MemTable.new 8 .DUP_KEYS) [⟨1, 4, 0⟩, ⟨2, 5, 0⟩]).flush
        ⟨fun i => if i = 0 then .OLAP_SUCCESS else .OLAP_ERR 3,
          .OLAP_SUCCESS⟩).2 =
      ((applyInserts (MemTable.new 8 .DUP_KEYS)
          [⟨1, 4, 0⟩, ⟨2, 5, 0⟩]).records.take 2).map
        (fun r => .add (agg_finalize_row r)) ∧
    WriterEvent.seal ∉
      ((applyInserts (MemTable.new 8 .DUP_KEYS) [⟨1, 4, 0⟩, ⟨2, 5, 0⟩]).flush
        ⟨fun i => if i = 0 then .OLAP_SUCCESS else .OLAP_ERR 3,
          .OLAP_SUCCESS⟩).2 :=
  flush_stops_at_first_add_failure 8 .DUP_KEYS [⟨1, 4, 0⟩, ⟨2, 5, 0⟩]
    ⟨fun i => if i = 0 then .OLAP_SUCCESS else .OLAP_ERR 3, .OLAP_SUCCESS⟩
    1 3 (by decide) (by decide) (by decide)

/-- C8: Flushing a memtable with zero inserts succeeds when the writer's
seal succeeds: the trace is exactly one seal call with zero prior
`add_row` calls. -/
theorem empty_flush_seals_with_no_adds (s : Nat) (kt : KeysType)
    (w : RowsetWriter) (h : w.flushSt = .OLAP_SUCCESS) :
    ((MemTable.new s kt).flush w).1 = .OLAP_SUCCESS ∧
    ((MemTable.new s kt).flush w).2 = [.seal] := by
  have hf := flush_all_ok (MemTable.new s kt) w
    (by rw [new_records]; intro i hi; exact absurd hi (Nat.not_lt_zero i))
  rw [new_records] at hf
  simp only [List.map_nil, List.nil_append] at hf
  rw [hf, h]
  exact ⟨rfl, rfl⟩

/-- Witness for C8: a concrete empty memtable flushed against a writer
whose seal succeeds. -/
theorem empty_flush_seals_with_no_adds_witness :
    ((MemTable.new 16 .AGG_KEYS).flush
        ⟨fun _ => .OLAP_ERR 5, .OLAP_SUCCESS⟩).1 = .OLAP_SUCCESS ∧
    ((MemTable.new 16 .AGG_KEYS).flush
        ⟨fun _ => .OLAP_ERR 5, .OLAP_SUCCESS⟩).2 = [.seal] :=
  empty_flush_seals_with_no_adds 16 .AGG_KEYS
    ⟨fun _ => .OLAP_ERR 5, .OLAP_SUCCESS⟩ rfl

/-- C9: `close()` is exactly `flush()`: in every memtable state and
against every writer, `close` performs the same drain (same writer call
trace) and returns the same result as `flush`. -/
theorem close_is_flush (mt : MemTable) (w : RowsetWriter) :
    mt.close w = mt.flush w := rfl

/-- C3: When `insert` commits a fresh key (`overwritten` false), a fresh
scratch buffer of the schema's row footprint is allocated from the arena
for the next call: the scratch handle becomes the arena's next fresh
handle and consumption grows by the decode bytes plus `_schema_size`.
When the key already existed (`overwritten` true), no scratch buffer is
allocated: the handle and the arena's allocation counter are unchanged
and only the decode bytes are consumed. -/
theorem insert_scratch_allocation_policy (mt : MemTable) (t : Tuple) :
    (mt.overwrittenOf t = false →
      (mt.insert t).tuple_buf = mt.pool.nextId ∧
      (mt.insert t).pool.nextId = mt.pool.nextId + 1 ∧
      (mt.insert t).pool.consumption =
        mt.pool.consumption + t.varBytes + mt.schema_size) ∧
    (mt.overwrittenOf t = true →
      (mt.insert t).tuple_buf = mt.tuple_buf ∧
      (mt.insert t).pool.nextId = mt.pool.nextId ∧
      (mt.insert t).pool.consumption = mt.pool.consumption + t.varBytes) := by
  unfold MemTable.overwrittenOf
  constructor
  · intro hov
    simp [MemTable.insert, hov, MemPool.allocate]
  · intro hov
    simp [MemTable.insert, hov]

/-- Witness for C3: a fresh-key insert allocates the next arena buffer;
an equal-key insert into an aggregate table reuses the scratch buffer. -/
theorem insert_scratch_allocation_policy_witness :
    ((MemTable.new 8 .AGG_KEYS).insert ⟨1, 10, 0⟩).tuple_buf =
      (MemTable.new 8 .AGG_KEYS).pool.nextId ∧
    (((MemTable.new 8 .AGG_KEYS).insert ⟨1, 10, 0⟩).insert
        ⟨1, 5, 2⟩).tuple_buf =
      ((MemTable.new 8 .AGG_KEYS).insert ⟨1, 10, 0⟩).tuple_buf :=
  ⟨((insert_scratch_allocation_policy (MemTable.new 8 .AGG_KEYS)
      ⟨1, 10, 0⟩).1 (by decide)).1,
   ((insert_scratch_allocation_policy
      ((MemTable.new 8 .AGG_KEYS).insert ⟨1, 10, 0⟩)
      ⟨1, 5, 2⟩).2 (by decide)).1⟩

/-- C5 counterexample: the claim says the index never merges and that
the memtable applies the aggregation policy to the resident record via
the handles the index returns.  `MemTable::insert` (source lines 76-80)
contains no aggregation step: composing the source's insert verbatim
with the spec's own never-merging `insert_or_locate` index
(`MemTable.insertLocateOnly`) leaves the resident value columns
unmerged — inserting (key 1, val 10) then (key 1, val 20) into an
aggregate-sum table yields resident value 10, not the 30 the spec's §8
requires.  Hence the memtable is not where merging happens. -/
theorem memtable_applies_no_merge_counterexample :
    (((MemTable.new 16 .AGG_KEYS).insertLocateOnly
        ⟨1, 10, 0⟩).insertLocateOnly ⟨1, 20, 0⟩).records.map Row.val = [10] ∧
    ([10] : List Int) ≠ [30] := by decide

/-- C5 (amended): the memtable performs no key-collision merging itself,
but neither does it receive handles to merge with — it passes the
table's `_keys_type` into the index's `Insert`, which applies the
aggregation policy to the resident record internally; the memtable's
insert leaves the index contents exactly as `Insert` produced them and
only consults the `overwritten` flag.  Concretely, the merge of an
equal-key aggregate insert happens inside `skipListInsert` itself. -/
theorem merge_happens_inside_index_insert (mt : MemTable) (t : Tuple) :
    (mt.insert t).records =
      (skipListInsert mt.records (mt.mkRow t) mt.keys_type).1 ∧
    (skipListInsert [⟨0, 1, 10, false⟩] ⟨5, 1, 20, false⟩
        KeysType.AGG_KEYS).1.map Row.val = [30] :=
  ⟨insert_records_eq mt t, by decide⟩

/-- One `insert` never decreases the arena's tracked consumption. -/
theorem insert_consumption_mono (mt : MemTable) (t : Tuple) :
    mt.pool.consumption ≤ (mt.insert t).pool.consumption := by
  cases hov : (skipListInsert mt.records (mt.mkRow t) mt.keys_type).2 <;>
    simp [MemTable.insert, hov, MemPool.allocate]
  all_goals omega

/-- C6: `memory_usage()` returns the arena tracker's current consumption
and is monotonically non-decreasing across any sequence of `insert`
calls. -/
theorem memory_usage_nondecreasing (mt : MemTable) (ts : List Tuple) :
    mt.memory_usage = mt.pool.consumption ∧
    mt.memory_usage ≤ (applyInserts mt ts).memory_usage := by
  refine ⟨rfl, ?_⟩
  induction ts generalizing mt with
  | nil => exact Nat.le_refl _
  | cons t ts ih =>
    exact Nat.le_trans (insert_consumption_mono mt t) (ih (mt.insert t))

/-- C10: Construction eagerly allocates one scratch buffer of the
schema's row footprint from the arena, so `memory_usage()` already
equals the row footprint before the first insert; whenever the footprint
is positive, a memtable with zero inserts reports strictly positive
consumption. -/
theorem construction_preallocates_row_footprint (s : Nat) (kt : KeysType) :
    (MemTable.new s kt).memory_usage = s ∧
    (0 < s → 0 < (MemTable.new s kt).memory_usage) := by
  constructor
  · simp [MemTable.new, MemPool.allocate, MemTable.memory_usage]
  · intro h
    simpa [MemTable.new, MemPool.allocate, MemTable.memory_usage] using h

/-- Witness for C10: a 16-byte row footprint is already tracked at
construction. -/
theorem construction_preallocates_row_footprint_witness :
    (MemTable.new 16 .DUP_KEYS).memory_usage = 16 ∧
    0 < (MemTable.new 16 .DUP_KEYS).memory_usage :=
  ⟨(construction_preallocates_row_footprint 16 .DUP_KEYS).1,
   (construction_preallocates_row_footprint 16 .DUP_KEYS).2 (by decide)⟩

/-- Unfolding `insert` when the key already existed: only the decode
bytes are consumed; scratch handle and allocation counter unchanged. -/
theorem insert_eq_of_overwritten (mt : MemTable) (t : Tuple)
    (hov : (skipListInsert mt.records (mt.mkRow t) mt.keys_type).2 = true) :
    mt.insert t =
      { mt with
        pool := { mt.pool with
          consumption := mt.pool.consumption + t.varBytes },
        records := (skipListInsert mt.records (mt.mkRow t) mt.keys_type).1 } := by
  simp [MemTable.insert, hov]

/-- Unfolding `insert` when a fresh key was committed: the scratch handle
becomes the arena's next fresh handle and the row footprint is
consumed on top of the decode bytes. -/
theorem insert_eq_of_fresh (mt : MemTable) (t : Tuple)
    (hov : (skipListInsert mt.records (mt.mkRow t) mt.keys_type).2 = false) :
    mt.insert t =
      { mt with
        pool := { consumption := mt.pool.consumption + t.varBytes + mt.schema_size,
                  nextId := mt.pool.nextId + 1 },
        records := (skipListInsert mt.records (mt.mkRow t) mt.keys_type).1,
        tuple_buf := mt.pool.nextId } := by
  simp [MemTable.insert, MemPool.allocate, hov]

/-- C4: All failures from the collaborators observable in the core
propagate as explicit result signals out of `flush`, none swallowed, and
there is no retry logic.  Precisely: `flush` succeeds iff every `add_row`
call on the resident records and the final seal succeeded; any error it
returns is literally one of the writer's own error signals; and the
writer is called at most once per resident record plus once for the seal
(no retries).  (`insert` has no fallible collaborator signal at its
interface in the source — it returns `void` and the arena's `allocate`
returns a buffer, not a status — so there is nothing it could swallow.) -/
theorem collaborator_failures_propagate (mt : MemTable) (w : RowsetWriter) :
    ((mt.flush w).1 = .OLAP_SUCCESS ↔
      (∀ i, i < mt.records.length → w.addSt i = .OLAP_SUCCESS) ∧
        w.flushSt = .OLAP_SUCCESS) ∧
    (∀ e, (mt.flush w).1 = .OLAP_ERR e →
      (∃ i, i < mt.records.length ∧ w.addSt i = .OLAP_ERR e) ∨
        w.flushSt = .OLAP_ERR e) ∧
    (mt.flush w).2.length ≤ mt.records.length + 1 := by
  by_cases hall : ∀ i, i < mt.records.length → w.addSt i = .OLAP_SUCCESS
  · have hf := flush_all_ok mt w hall
    rw [hf]
    refine ⟨⟨fun hs => ⟨hall, hs⟩, fun hs => hs.2⟩, fun e he => Or.inr he, ?_⟩
    simp
  · push_neg at hall
    obtain ⟨i0, hi0, hne⟩ := hall
    have hex : ∃ i, w.addSt i ≠ .OLAP_SUCCESS := ⟨i0, hne⟩
    have hjspec : w.addSt (Nat.find hex) ≠ .OLAP_SUCCESS := Nat.find_spec hex
    have hjlt : Nat.find hex < mt.records.length :=
      Nat.lt_of_le_of_lt (Nat.find_min' hex hne) hi0
    have hpre : ∀ i, i < Nat.find hex → w.addSt i = .OLAP_SUCCESS := by
      intro i hi
      have := Nat.find_min hex hi
      exact not_not.mp this
    cases he : w.addSt (Nat.find hex) with
    | OLAP_SUCCESS => exact absurd he hjspec
    | OLAP_ERR e =>
      have hf := flush_fail mt w (Nat.find hex) e hjlt he hpre
      rw [hf]
      refine ⟨⟨fun hs => OLAPStatus.noConfusion hs,
        fun hs => absurd (hs.1 _ hjlt) hjspec⟩, ?_, ?_⟩
      · intro e' he'
        have : e = e' := by injection he'
        exact Or.inl ⟨Nat.find hex, hjlt, this ▸ he⟩
      · simp only [List.length_map, List.length_take]
        omega

/-- Witness for C4: against an all-success writer, the iff direction
yields success of a concrete flush. -/
theorem collaborator_failures_propagate_witness :
    ((applyInserts (MemTable.new 4 .DUP_KEYS) [⟨1, 1, 0⟩]).flush
        ⟨fun _ => .OLAP_SUCCESS, .OLAP_SUCCESS⟩).1 = .OLAP_SUCCESS :=
  (collaborator_failures_propagate
      (applyInserts (MemTable.new 4 .DUP_KEYS) [⟨1, 1, 0⟩])
      ⟨fun _ => .OLAP_SUCCESS, .OLAP_SUCCESS⟩).1.mpr
    ⟨by decide, rfl⟩

/-- Every backing buffer in the index after an `Insert` is either the
inserted record's buffer or a buffer that was already resident (merging
keeps the resident node's buffer). -/
theorem skipListInsert_buf_mem (rs : List Row) (r : Row) (kt : KeysType) :
    ∀ b ∈ (skipListInsert rs r kt).1, b.buf = r.buf ∨ ∃ a ∈ rs, b.buf = a.buf := by
  induction rs with
  | nil =>
    intro b hb
    simp only [skipListInsert, List.mem_singleton] at hb
    exact Or.inl (hb ▸ rfl)
  | cons x xs ih =>
    intro b hb
    by_cases h1 : r.key < x.key
    · simp only [skipListInsert, if_pos h1, List.mem_cons] at hb
      rcases hb with rfl | rfl | hb
      · exact Or.inl rfl
      · exact Or.inr ⟨b, List.mem_cons_self _ _, rfl⟩
      · exact Or.inr ⟨b, List.mem_cons_of_mem _ hb, rfl⟩
    · by_cases h2 : x.key < r.key
      · simp only [skipListInsert, if_neg h1, if_pos h2, List.mem_cons] at hb
        rcases hb with rfl | hb
        · exact Or.inr ⟨b, List.mem_cons_self _ _, rfl⟩
        · rcases ih b hb with hk | ⟨a, ha, hk⟩
          · exact Or.inl hk
          · exact Or.inr ⟨a, List.mem_cons_of_mem _ ha, hk⟩
      · simp only [skipListInsert, if_neg h1, if_neg h2] at hb
        cases kt with
        | DUP_KEYS =>
          simp only [List.mem_cons] at hb
          rcases hb with rfl | rfl | hb
          · exact Or.inl rfl
          · exact Or.inr ⟨b, List.mem_cons_self _ _, rfl⟩
          · exact Or.inr ⟨b, List.mem_cons_of_mem _ hb, rfl⟩
        | UNIQUE_KEYS =>
          simp only [List.mem_cons] at hb
          rcases hb with rfl | hb
          · exact Or.inr ⟨x, List.mem_cons_self _ _, mergeRow_buf _ _ _⟩
          · exact Or.inr ⟨b, List.mem_cons_of_mem _ hb, rfl⟩
        | AGG_KEYS =>
          simp only [List.mem_cons] at hb
          rcases hb with rfl | hb
          · exact Or.inr ⟨x, List.mem_cons_self _ _, mergeRow_buf _ _ _⟩
          · exact Or.inr ⟨b, List.mem_cons_of_mem _ hb, rfl⟩

/-- When `Insert` reports `overwritten`, the inserted record's bytes were
never committed: every backing buffer in the index was already
resident. -/
theorem skipListInsert_overwritten_bufs (rs : List Row) (r : Row)
    (kt : KeysType) (hov : (skipListInsert rs r kt).2 = true) :
    ∀ b ∈ (skipListInsert rs r kt).1, ∃ a ∈ rs, b.buf = a.buf := by
  induction rs with
  | nil => simp [skipListInsert] at hov
  | cons x xs ih =>
    intro b hb
    by_cases h1 : r.key < x.key
    · simp [skipListInsert, if_pos h1] at hov
    · by_cases h2 : x.key < r.key
      · simp only [skipListInsert, if_neg h1, if_pos h2] at hov hb
        rcases List.mem_cons.mp hb with rfl | hb
        · exact ⟨b, List.mem_cons_self _ _, rfl⟩
        · rcases ih hov b hb with ⟨a, ha, hba⟩
          exact ⟨a, List.mem_cons_of_mem _ ha, hba⟩
      · simp only [skipListInsert, if_neg h1, if_neg h2] at hov hb
        cases kt with
        | DUP_KEYS => simp at hov
        | UNIQUE_KEYS =>
          rcases List.mem_cons.mp hb with rfl | hb
          · exact ⟨x, List.mem_cons_self _ _, mergeRow_buf _ _ _⟩
          · exact ⟨b, List.mem_cons_of_mem _ hb, rfl⟩
        | AGG_KEYS =>
          rcases List.mem_cons.mp hb with rfl | hb
          · exact ⟨x, List.mem_cons_self _ _, mergeRow_buf _ _ _⟩
          · exact ⟨b, List.mem_cons_of_mem _ hb, rfl⟩

/-- The scratch-ownership invariant of §3: the live scratch buffer was
arena-allocated (its handle is below the allocation counter) and is not
committed to the index; every committed buffer is arena-allocated too. -/
def ScratchInv (mt : MemTable) : Prop :=
  mt.tuple_buf < mt.pool.nextId ∧
  ∀ r ∈ mt.records, r.buf < mt.pool.nextId ∧ r.buf ≠ mt.tuple_buf

/-- A fresh memtable satisfies the scratch-ownership invariant. -/
theorem new_scratchInv (s : Nat) (kt : KeysType) :
    ScratchInv (MemTable.new s kt) := by
  refine ⟨?_, ?_⟩
  · simp [MemTable.new, MemPool.allocate]
  · intro r hr
    simp [MemTable.new] at hr

/-- `insert` preserves the scratch-ownership invariant. -/
theorem insert_scratchInv (mt : MemTable) (t : Tuple)
    (h : ScratchInv mt) : ScratchInv (mt.insert t) := by
  obtain ⟨hbuf, hrec⟩ := h
  by_cases hov : (skipListInsert mt.records (mt.mkRow t) mt.keys_type).2 = true
  · rw [insert_eq_of_overwritten mt t hov]
    refine ⟨hbuf, ?_⟩
    intro r hr
    rcases skipListInsert_overwritten_bufs mt.records (mt.mkRow t)
        mt.keys_type hov r hr with ⟨a, ha, hba⟩
    exact ⟨hba ▸ (hrec a ha).1, hba ▸ (hrec a ha).2⟩
  · rw [insert_eq_of_fresh mt t (Bool.not_eq_true _ ▸ hov)]
    refine ⟨Nat.lt_succ_self _, ?_⟩
    intro r hr
    have hlt : r.buf < mt.pool.nextId := by
      rcases skipListInsert_buf_mem mt.records (mt.mkRow t)
          mt.keys_type r hr with hb | ⟨a, ha, hba⟩
      · rw [hb]
        exact hbuf
      · rw [hba]
        exact (hrec a ha).1
    exact ⟨Nat.lt_succ_of_lt hlt, Nat.ne_of_lt hlt⟩

/-- Every reachable memtable satisfies the scratch-ownership
invariant. -/
theorem applyInserts_scratchInv (ts : List Tuple) (mt : MemTable)
    (h : ScratchInv mt) : ScratchInv (applyInserts mt ts) := by
  induction ts generalizing mt with
  | nil => exact h
  | cons t ts ih => exact ih (mt.insert t) (insert_scratchInv mt t h)

/-- C7: In every reachable memtable state, the single live scratch
buffer is not committed to the index (no resident record's backing
buffer aliases it); across an `insert`, the scratch buffer is reused
exactly when the key already existed, and is replaced by a freshly
allocated arena buffer — distinct from the old scratch and from every
committed buffer — exactly when the insertion committed it under a
fresh key. -/
theorem scratch_buffer_lifecycle (s : Nat) (kt : KeysType)
    (ts : List Tuple) (t : Tuple) :
    let mt := applyInserts (MemTable.new s kt) ts
    (∀ r ∈ mt.records, r.buf ≠ mt.tuple_buf) ∧
    (mt.overwrittenOf t = true → (mt.insert t).tuple_buf = mt.tuple_buf) ∧
    (mt.overwrittenOf t = false →
      (mt.insert t).tuple_buf ≠ mt.tuple_buf ∧
      ∀ r ∈ (mt.insert t).records, r.buf ≠ (mt.insert t).tuple_buf) := by
  intro mt
  have hinv : ScratchInv mt := applyInserts_scratchInv ts _ (new_scratchInv s kt)
  have hinv' : ScratchInv (mt.insert t) := insert_scratchInv mt t hinv
  refine ⟨fun r hr => (hinv.2 r hr).2, ?_, ?_⟩
  · intro hov
    rw [insert_eq_of_overwritten mt t hov]
  · intro hov
    refine ⟨?_, fun r hr => (hinv'.2 r hr).2⟩
    rw [insert_eq_of_fresh mt t hov]
    exact Ne.symm (Nat.ne_of_lt hinv.1)

/-- Witness for C7: an equal-key aggregate insert reuses the scratch
buffer, and a fresh-key insert replaces it. -/
theorem scratch_buffer_lifecycle_witness :
    ((applyInserts (MemTable.new 8 .AGG_KEYS) [⟨1, 10, 0⟩]).insert
        ⟨1, 5, 0⟩).tuple_buf =
      (applyInserts (MemTable.new 8 .AGG_KEYS) [⟨1, 10, 0⟩]).tuple_buf ∧
    ((applyInserts (MemTable.new 8 .AGG_KEYS) [⟨1, 10, 0⟩]).insert
        ⟨2, 5, 0⟩).tuple_buf ≠
      (applyInserts (MemTable.new 8 .AGG_KEYS) [⟨1, 10, 0⟩]).tuple_buf :=
  ⟨(scratch_buffer_lifecycle 8 .AGG_KEYS [⟨1, 10, 0⟩] ⟨1, 5, 0⟩).2.1
      (by decide),
   ((scratch_buffer_lifecycle 8 .AGG_KEYS [⟨1, 10, 0⟩] ⟨2, 5, 0⟩).2.2
      (by decide)).1⟩
